import Mathlib

/-!
Verification of the screen-stack and event-dispatch protocol of
`Magnum::Platform::BasicScreenedApplication`
(src/src/Magnum/Platform/ScreenedApplication.h).

The repository slice contains only the class declaration header; the
operation bodies live in ScreenedApplication.hpp, which is not part of the
slice. Accordingly the operations below are modelled from the spec
(spec.md §3, §4.3) and the header's own doc comments, as a shallow
embedding: a screen is identified by a natural number, the application
state is the front-to-back list of linked screen ids, per-screen
propagation flags and input-handler results are explicit function
parameters, and every handler invocation is recorded in an event trace.
-/

namespace Magnum

/-- Modelled from the spec: the per-screen propagation flag set drawn from
`{Draw, Input}` (`BasicScreen::PropagatedEvent`), both independently
toggleable. (`BasicScreen` itself is outside the repository slice.) -/
structure PropagatedEvents where
  draw : Bool
  input : Bool
deriving DecidableEq, Repr

/-- The five input-event kinds dispatched by the screened application:
key-press, key-release, mouse-press, mouse-release, mouse-move. -/
inductive InputKind where
  | keyPress
  | keyRelease
  | mousePress
  | mouseRelease
  | mouseMove
deriving DecidableEq, Repr

/-- Trace entries: one entry per handler invocation performed by the
dispatch and lifecycle operations. -/
inductive Ev where
  /-- `BasicScreen::focusEvent()` invoked on screen `s`. -/
  | focus (s : Nat)
  /-- `BasicScreen::blurEvent()` invoked on screen `s`. -/
  | blur (s : Nat)
  /-- `BasicScreen::drawEvent()` invoked on screen `s`. -/
  | draw (s : Nat)
  /-- the application's `globalDrawEvent()` invoked. -/
  | globalDraw
  /-- `BasicScreen::viewportEvent()` invoked on screen `s`. -/
  | viewport (s : Nat)
  /-- the application's `globalViewportEvent()` invoked. -/
  | globalViewport
  /-- the input handler of kind `k` invoked on screen `s`. -/
  | input (k : InputKind) (s : Nat)
deriving DecidableEq, Repr

/-- Modelled from the spec: the state of a `BasicScreenedApplication` — an
object identity plus the intrusive list of linked screens, kept
front-to-back (head = front/nearest, last = back/farthest). The
`Corrade::Containers::LinkedList` members are outside the repository
slice, so the ordered collection is modelled as a Lean list. -/
structure ScreenedApplication where
  ident : Nat
  screens : List Nat
deriving DecidableEq, Repr

/-- Modelled from the spec (§4.3 `addScreen`, and the header doc at
ScreenedApplication.h:133-142): insert the screen as backmost; if after
insertion it is the only screen (first == last, i.e. the list was
previously empty), invoke its `focusEvent()`. Returns the updated
application (self) and the trace of handler invocations. -/
def addScreen (a : ScreenedApplication) (s : Nat) :
    ScreenedApplication × List Ev :=
  let l := a.screens ++ [s]
  (⟨a.ident, l⟩, if l.length = 1 then [Ev.focus s] else [])

/-- Modelled from the spec (§4.3 `removeScreen`, header doc at
ScreenedApplication.h:144-152): invoke the screen's `blurEvent()`, then
unlink it; the screen object itself is not destroyed. -/
def removeScreen (a : ScreenedApplication) (s : Nat) :
    ScreenedApplication × List Ev :=
  (⟨a.ident, a.screens.erase s⟩, [Ev.blur s])

/-- Modelled from the spec (§4.3 `focusScreen`, header doc at
ScreenedApplication.h:154-162): if the screen is already front, no-op;
otherwise invoke the current front screen's `blurEvent()`, move the
screen to the front, then invoke its `focusEvent()`. -/
def focusScreen (a : ScreenedApplication) (s : Nat) :
    ScreenedApplication × List Ev :=
  match a.screens with
  | [] => (a, [])
  | f :: rest =>
    if f = s then (a, [])
    else (⟨a.ident, s :: (f :: rest).erase s⟩, [Ev.blur f, Ev.focus s])

/-- Modelled from the spec (§4.3 input events, header doc at
ScreenedApplication.h:57-64, 222-226): front-to-back propagation of an
input event of kind `k` to the screens with the Input flag enabled,
stopping as soon as a handler marks the event accepted. `fl` gives each
screen's propagation flags; `accepts s` tells whether screen `s`'s
handler marks the event accepted. -/
def dispatchInput (fl : Nat → PropagatedEvents) (accepts : Nat → Bool)
    (k : InputKind) : List Nat → List Ev
  | [] => []
  | s :: rest =>
    if (fl s).input then
      if accepts s then [Ev.input k s]
      else Ev.input k s :: dispatchInput fl accepts k rest
    else dispatchInput fl accepts k rest

/-- Per-screen part of the draw dispatch: walk the given screen sequence,
invoking `drawEvent()` on each screen whose Draw flag is enabled. -/
def drawScreens (fl : Nat → PropagatedEvents) : List Nat → List Ev
  | [] => []
  | s :: rest =>
    (if (fl s).draw then [Ev.draw s] else []) ++ drawScreens fl rest

/-- Modelled from the spec (§4.3 draw event, header doc at
ScreenedApplication.h:54-56, 201-209, 221): back-to-front traversal
(reverse of the front-to-back list) invoking `drawEvent()` on the
Draw-flagged screens, followed by exactly one `globalDrawEvent()`. -/
def dispatchDraw (fl : Nat → PropagatedEvents) (l : List Nat) : List Ev :=
  drawScreens fl l.reverse ++ [Ev.globalDraw]

/-- Per-screen part of the viewport dispatch: every screen receives
`viewportEvent()`, regardless of its propagation flags. -/
def viewportScreens : List Nat → List Ev
  | [] => []
  | s :: rest => Ev.viewport s :: viewportScreens rest

/-- Modelled from the spec (§4.3 viewport event, header doc at
ScreenedApplication.h:52-53, 191-199, 220): the application's
`globalViewportEvent()` runs first, then every linked screen's
`viewportEvent()` front-to-back, irrespective of flags. -/
def dispatchViewport (l : List Nat) : List Ev :=
  Ev.globalViewport :: viewportScreens l

/-- `BasicScreen::nextFartherScreen()` on the front-to-back sequence `l`:
the screen one position farther (toward the back) than `s`, or `none`
when `s` is backmost or not in the sequence. -/
def nextFartherAux (s : Nat) : List Nat → Option Nat
  | [] => none
  | [_] => none
  | x :: y :: rest =>
    if x = s then some y else nextFartherAux s (y :: rest)

/-- Modelled from the spec (§4.2): `nextFartherScreen()` — read-only
navigation toward the back, `none` at the back boundary or when
unlinked. -/
def nextFartherScreen (a : ScreenedApplication) (s : Nat) : Option Nat :=
  nextFartherAux s a.screens

/-- Modelled from the spec (§4.2): `nextNearerScreen()` — read-only
navigation toward the front, `none` at the front boundary or when
unlinked. -/
def nextNearerScreen (a : ScreenedApplication) (s : Nat) : Option Nat :=
  nextFartherAux s a.screens.reverse

/-- Modelled from the spec (§3): a screen's weak back-reference to the
owning application — `some` of the owner's identity while linked, `none`
while unlinked. -/
def screenApplication (a : ScreenedApplication) (s : Nat) : Option Nat :=
  if s ∈ a.screens then some a.ident else none

/-- The three lifecycle operations, for reasoning about operation
sequences. -/
inductive Op where
  | add (s : Nat)
  | remove (s : Nat)
  | focus (s : Nat)
deriving DecidableEq, Repr

/-- Apply one lifecycle operation to the application state. -/
def applyOp (a : ScreenedApplication) : Op → ScreenedApplication × List Ev
  | .add s => addScreen a s
  | .remove s => removeScreen a s
  | .focus s => focusScreen a s

/-- Modelled from the spec (§4.3 precondition column): `addScreen`
requires the screen to be unlinked, `removeScreen` and `focusScreen`
require it to be linked in this application's list. -/
def opPre (a : ScreenedApplication) : Op → Prop
  | .add s => s ∉ a.screens
  | .remove s => s ∈ a.screens
  | .focus s => s ∈ a.screens

instance (a : ScreenedApplication) (op : Op) : Decidable (opPre a op) :=
  match op with
  | .add s => inferInstanceAs (Decidable (s ∉ a.screens))
  | .remove s => inferInstanceAs (Decidable (s ∈ a.screens))
  | .focus s => inferInstanceAs (Decidable (s ∈ a.screens))

/-- Run a sequence of lifecycle operations, left to right. -/
def runOps (a : ScreenedApplication) : List Op → ScreenedApplication
  | [] => a
  | op :: ops => runOps (applyOp a op).1 ops

/-- Every operation of the sequence satisfies its precondition in the
state where it executes. -/
def ValidOps (a : ScreenedApplication) : List Op → Prop
  | [] => True
  | op :: ops => opPre a op ∧ ValidOps (applyOp a op).1 ops

def decValidOps :
    (a : ScreenedApplication) → (ops : List Op) → Decidable (ValidOps a ops)
  | _, [] => .isTrue True.intro
  | a, op :: ops =>
    have : Decidable (ValidOps (applyOp a op).1 ops) := decValidOps _ ops
    inferInstanceAs (Decidable (_ ∧ _))

instance (a : ScreenedApplication) (ops : List Op) :
    Decidable (ValidOps a ops) := decValidOps a ops

/-- The assertion channel for precondition violations
(`CORRADE_ASSERT`-style contract violations, not recoverable errors). -/
inductive AssertionViolation where
  | screenAlreadyLinked (s : Nat)
  | screenNotLinked (s : Nat)
deriving DecidableEq, Repr

/-- Modelled from the spec (§4.3, §7): `addScreen` with its precondition
check — linking an already-linked screen is a contract violation
reported at the point of misuse. -/
def addScreenChecked (a : ScreenedApplication) (s : Nat) :
    Except AssertionViolation (ScreenedApplication × List Ev) :=
  if s ∈ a.screens then .error (.screenAlreadyLinked s)
  else .ok (addScreen a s)

/-- Modelled from the spec (§4.3, §7): `removeScreen` with its
precondition check. -/
def removeScreenChecked (a : ScreenedApplication) (s : Nat) :
    Except AssertionViolation (ScreenedApplication × List Ev) :=
  if s ∈ a.screens then .ok (removeScreen a s)
  else .error (.screenNotLinked s)

/-- Modelled from the spec (§4.3, §7): `focusScreen` with its
precondition check. -/
def focusScreenChecked (a : ScreenedApplication) (s : Nat) :
    Except AssertionViolation (ScreenedApplication × List Ev) :=
  if s ∈ a.screens then .ok (focusScreen a s)
  else .error (.screenNotLinked s)

/-- The screen-link invariant of spec §3: a linked screen's back-reference
points to the owner, an unlinked screen's is `none`; the front screen has
no nearer neighbour and the back screen no farther one; navigation from
an unlinked screen yields `none`. -/
def LinkInvariant (a : ScreenedApplication) : Prop :=
  a.screens.Nodup ∧
  (∀ s, s ∈ a.screens → screenApplication a s = some a.ident) ∧
  (∀ s, s ∉ a.screens →
    screenApplication a s = none ∧
    nextFartherScreen a s = none ∧ nextNearerScreen a s = none) ∧
  (∀ f, a.screens.head? = some f → nextNearerScreen a f = none) ∧
  (∀ b, a.screens.getLast? = some b → nextFartherScreen a b = none)

/-- The spec's description of input delivery, rendered directly: deliver
to each screen of the (already filtered) sequence in order, and stop
right after the first screen that marks the event accepted. -/
def visitList (accepts : Nat → Bool) : List Nat → List Nat
  | [] => []
  | s :: rest => s :: if accepts s then [] else visitList accepts rest

lemma dispatchInput_eq_visitList (fl : Nat → PropagatedEvents)
    (accepts : Nat → Bool) (k : InputKind) (l : List Nat) :
    dispatchInput fl accepts k l =
      (visitList accepts (l.filter fun s => (fl s).input)).map
        (Ev.input k) := by
  induction l with
  | nil => rfl
  | cons s rest ih =>
    by_cases h : (fl s).input = true
    · by_cases ha : accepts s = true <;>
        simp [dispatchInput, visitList, List.filter_cons, h, ha, ih]
    · simp [dispatchInput, List.filter_cons, h, ih]

lemma visitList_of_no_accept (accepts : Nat → Bool) :
    ∀ l : List Nat, (∀ s ∈ l, accepts s = false) → visitList accepts l = l
  | [], _ => rfl
  | s :: rest, h => by
    have hs : accepts s = false := h s (List.mem_cons_self s rest)
    simp [visitList, hs]
    exact visitList_of_no_accept accepts rest
      fun t ht => h t (List.mem_cons_of_mem s ht)

lemma dispatchInput_accepted_stops (fl : Nat → PropagatedEvents)
    (accepts : Nat → Bool) (k : InputKind) :
    ∀ (l : List Nat) (pre : List Ev) (s : Nat) (post : List Ev),
      dispatchInput fl accepts k l = pre ++ Ev.input k s :: post →
      accepts s = true → post = []
  | [], pre, s, post, h, _ => by simp [dispatchInput] at h
  | x :: rest, pre, s, post, h, ha => by
    by_cases hx : (fl x).input = true
    · by_cases hax : accepts x = true
      · rw [dispatchInput, if_pos hx, if_pos hax] at h
        cases pre with
        | nil =>
          simp only [List.nil_append] at h
          injection h with h1 h2
          exact h2.symm
        | cons p pre =>
          simp only [List.cons_append] at h
          injection h with h1 h2
          simp at h2
      · rw [dispatchInput, if_pos hx, if_neg hax] at h
        cases pre with
        | nil =>
          have h1 : Ev.input k x = Ev.input k s := by
            simpa using congrArg List.head? h
          have hxs : x = s := by
            injection h1
          exact absurd ha (hxs ▸ hax)
        | cons p pre =>
          simp only [List.cons_append, List.cons.injEq] at h
          exact dispatchInput_accepted_stops fl accepts k rest pre s post
            h.2 ha
    · rw [dispatchInput, if_neg hx] at h
      exact dispatchInput_accepted_stops fl accepts k rest pre s post h ha

/-- Claim C1: an input event of any of the five kinds is delivered
front-to-back exactly to the Input-flagged screens, stopping immediately
once a handler marks it accepted; if no Input-flagged screen accepts,
every Input-flagged screen is visited exactly once, front-to-back. -/
theorem input_event_propagation (fl : Nat → PropagatedEvents)
    (accepts : Nat → Bool) (k : InputKind) (l : List Nat) :
    dispatchInput fl accepts k l =
      (visitList accepts (l.filter fun s => (fl s).input)).map
        (Ev.input k) ∧
    ((∀ s ∈ l.filter (fun s => (fl s).input), accepts s = false) →
      dispatchInput fl accepts k l =
        (l.filter fun s => (fl s).input).map (Ev.input k)) ∧
    (∀ pre s post,
      dispatchInput fl accepts k l = pre ++ Ev.input k s :: post →
      accepts s = true → post = []) := by
  refine ⟨dispatchInput_eq_visitList fl accepts k l, ?_, ?_⟩
  · intro h
    rw [dispatchInput_eq_visitList fl accepts k l,
      visitList_of_no_accept accepts _ h]
  · intro pre s post h ha
    exact dispatchInput_accepted_stops fl accepts k l pre s post h ha

/-- Witness for C1 at the spec's own example (screens 1, 2, 3
front-to-back, all Input-enabled): if screen 2 accepts a mouse press,
screens 1 and 2 are visited in that order and 3 is not; if nobody
accepts a key press, all three are visited front-to-back. -/
theorem input_event_propagation_witness :
    dispatchInput (fun _ => ⟨true, true⟩) (fun s => s == 2) .mousePress
        [1, 2, 3] =
      [Ev.input .mousePress 1, Ev.input .mousePress 2] ∧
    dispatchInput (fun _ => ⟨true, true⟩) (fun _ => false) .keyPress
        [1, 2, 3] =
      [Ev.input .keyPress 1, Ev.input .keyPress 2, Ev.input .keyPress 3] :=
  ⟨((input_event_propagation (fun _ => ⟨true, true⟩) (fun s => s == 2)
      .mousePress [1, 2, 3]).1).trans (by decide),
   ((input_event_propagation (fun _ => ⟨true, true⟩) (fun _ => false)
      .keyPress [1, 2, 3]).2.1 (by decide)).trans (by decide)⟩

lemma drawScreens_eq (fl : Nat → PropagatedEvents) (l : List Nat) :
    drawScreens fl l = (l.filter fun s => (fl s).draw).map Ev.draw := by
  induction l with
  | nil => rfl
  | cons s rest ih =>
    by_cases h : (fl s).draw = true <;>
      simp [drawScreens, List.filter_cons, h, ih]

/-- Claim C2: a draw dispatch invokes `drawEvent` on exactly the
Draw-flagged screens, in back-to-front order (reverse of the
front-to-back list), and `globalDrawEvent` runs exactly once, strictly
after all of them (it is the final trace entry). -/
theorem draw_event_order (fl : Nat → PropagatedEvents) (l : List Nat) :
    dispatchDraw fl l =
      ((l.filter fun s => (fl s).draw).reverse.map Ev.draw) ++
        [Ev.globalDraw] ∧
    (dispatchDraw fl l).count Ev.globalDraw = 1 ∧
    (dispatchDraw fl l).getLast? = some Ev.globalDraw ∧
    (∀ s, Ev.draw s ∈ dispatchDraw fl l ↔ s ∈ l ∧ (fl s).draw = true) := by
  have he : dispatchDraw fl l =
      ((l.filter fun s => (fl s).draw).reverse.map Ev.draw) ++
        [Ev.globalDraw] := by
    rw [dispatchDraw, drawScreens_eq, List.filter_reverse]
  refine ⟨he, ?_, ?_, ?_⟩
  · rw [he, List.count_append]
    have h0 : List.count Ev.globalDraw
        (((l.filter fun s => (fl s).draw).reverse.map Ev.draw)) = 0 := by
      rw [List.count_eq_zero]
      simp
    rw [h0]
    rfl
  · rw [he, List.getLast?_concat]
  · intro s
    rw [he]
    simp [and_comm]

/-- Claim C3: a viewport dispatch runs the application's
`globalViewportEvent` first, then every linked screen's `viewportEvent`
front-to-back; the per-screen delivery ignores the propagation flags
entirely (the dispatch does not consult them). -/
theorem viewport_event_broadcast (l : List Nat) :
    dispatchViewport l = Ev.globalViewport :: l.map Ev.viewport ∧
    (dispatchViewport l).head? = some Ev.globalViewport ∧
    (∀ s, Ev.viewport s ∈ dispatchViewport l ↔ s ∈ l) := by
  have he : dispatchViewport l =
      Ev.globalViewport :: l.map Ev.viewport := by
    rw [dispatchViewport]
    congr 1
    induction l with
    | nil => rfl
    | cons s rest ih => rw [viewportScreens, ih, List.map_cons]
  refine ⟨he, by rw [he]; rfl, ?_⟩
  intro s
  rw [he]
  simp

lemma focusScreen_of_head (b : ScreenedApplication) (s : Nat)
    (h : b.screens.head? = some s) : focusScreen b s = (b, []) := by
  cases hb : b.screens with
  | nil => rw [hb] at h; exact absurd h (by simp)
  | cons f rest =>
    rw [hb] at h
    have hf : f = s := by injection h
    simp [focusScreen, hb, hf]

/-- Claim C4: for a linked screen `s`, `focusScreen` is a no-op (no blur,
no focus) when `s` is already front; otherwise it blurs the current
front screen, moves `s` to the front, and focuses `s`, so `s` is front
afterwards — hence an immediately repeated `focusScreen s` triggers no
further calls. -/
theorem focusScreen_spec (a : ScreenedApplication) (s : Nat)
    (hmem : s ∈ a.screens) :
    (a.screens.head? = some s → focusScreen a s = (a, [])) ∧
    (∀ f, a.screens.head? = some f → f ≠ s →
      (focusScreen a s).2 = [Ev.blur f, Ev.focus s] ∧
      (focusScreen a s).1.screens = s :: a.screens.erase s) ∧
    (focusScreen a s).1.screens.head? = some s ∧
    focusScreen (focusScreen a s).1 s = ((focusScreen a s).1, []) := by
  have hfront : (focusScreen a s).1.screens.head? = some s := by
    cases ha : a.screens with
    | nil => rw [ha] at hmem; exact absurd hmem (by simp)
    | cons f rest =>
      by_cases hf : f = s
      · simp [focusScreen, ha, hf]
      · simp [focusScreen, ha, hf]
  refine ⟨focusScreen_of_head a s, ?_, hfront,
    focusScreen_of_head (focusScreen a s).1 s hfront⟩
  intro f hf hfs
  cases ha : a.screens with
  | nil => rw [ha] at hf; exact absurd hf (by simp)
  | cons g rest =>
    rw [ha] at hf
    have hg : g = f := by injection hf
    have hgs : ¬ g = s := hg ▸ hfs
    constructor
    · simp [focusScreen, ha, hgs, hg, hfs]
    · simp [focusScreen, ha, hgs]

/-- Witness for C4 at the spec's focus-swap example: with screens 1
(front) and 2 (back), `focusScreen 2` blurs 1 then focuses 2, and 2 is
front afterwards. -/
theorem focusScreen_spec_witness :
    (2 ∈ ([1, 2] : List Nat)) ∧
    ((focusScreen ⟨0, [1, 2]⟩ 2).2 = [Ev.blur 1, Ev.focus 2] ∧
      (focusScreen ⟨0, [1, 2]⟩ 2).1.screens =
        2 :: ([1, 2] : List Nat).erase 2) ∧
    (focusScreen ⟨0, [1, 2]⟩ 2).1.screens.head? = some 2 ∧
    focusScreen (focusScreen ⟨0, [1, 2]⟩ 2).1 2 =
      ((focusScreen ⟨0, [1, 2]⟩ 2).1, []) :=
  ⟨by decide,
   (focusScreen_spec ⟨0, [1, 2]⟩ 2 (by decide)).2.1 1 rfl (by decide),
   (focusScreen_spec ⟨0, [1, 2]⟩ 2 (by decide)).2.2⟩

/-- Claim C5: `addScreen` inserts the (unlinked) screen at the back of
the list; if the list was previously empty the new screen receives
exactly one `focusEvent` and nothing else (in particular no `blurEvent`
anywhere); otherwise no focus or blur handler runs at all. -/
theorem addScreen_spec (a : ScreenedApplication) (s : Nat)
    (h : s ∉ a.screens) :
    (addScreen a s).1.screens = a.screens ++ [s] ∧
    (a.screens = [] → (addScreen a s).2 = [Ev.focus s]) ∧
    (a.screens ≠ [] → (addScreen a s).2 = []) := by
  refine ⟨rfl, ?_, ?_⟩
  · intro he
    rw [addScreen]
    simp [he]
  · intro hne
    rw [addScreen]
    simp only []
    rw [if_neg]
    simp [hne]

/-- Witness for C5: adding screen 5 to an empty application links it at
the back and fires exactly one `focusEvent`; adding screen 6 afterwards
fires nothing. -/
theorem addScreen_spec_witness :
    (5 ∉ ([] : List Nat)) ∧
    (addScreen ⟨0, []⟩ 5).1.screens = [] ++ [5] ∧
    (addScreen ⟨0, []⟩ 5).2 = [Ev.focus 5] ∧
    (addScreen ⟨0, [5]⟩ 6).2 = [] :=
  ⟨by decide,
   (addScreen_spec ⟨0, []⟩ 5 (by decide)).1,
   (addScreen_spec ⟨0, []⟩ 5 (by decide)).2.1 rfl,
   (addScreen_spec ⟨0, [5]⟩ 6 (by decide)).2.2 (by decide)⟩

/-- Claim C6: `removeScreen` on a linked screen fires exactly one
`blurEvent`, on that screen, and nothing else; afterwards the screen is
no longer linked (unreachable through the list), while every other
screen's membership is untouched and the screen entity itself continues
to exist outside the list (the model removes only the link). -/
theorem removeScreen_spec (a : ScreenedApplication) (s : Nat)
    (hmem : s ∈ a.screens) (hn : a.screens.Nodup) :
    (removeScreen a s).2 = [Ev.blur s] ∧
    s ∉ (removeScreen a s).1.screens ∧
    (∀ t, t ≠ s → (t ∈ (removeScreen a s).1.screens ↔ t ∈ a.screens)) := by
  refine ⟨rfl, ?_, ?_⟩
  · exact hn.not_mem_erase
  · intro t ht
    exact List.mem_erase_of_ne ht

/-- Witness for C6: removing screen 1 from the two-screen application
fires exactly one `blurEvent` on it and unlinks it, leaving screen 2
linked. -/
theorem removeScreen_spec_witness :
    (1 ∈ ([1, 2] : List Nat)) ∧ ([1, 2] : List Nat).Nodup ∧
    (removeScreen ⟨0, [1, 2]⟩ 1).2 = [Ev.blur 1] ∧
    1 ∉ (removeScreen ⟨0, [1, 2]⟩ 1).1.screens ∧
    (2 ∈ (removeScreen ⟨0, [1, 2]⟩ 1).1.screens ↔
      2 ∈ ([1, 2] : List Nat)) :=
  ⟨by decide, by decide,
   (removeScreen_spec ⟨0, [1, 2]⟩ 1 (by decide) (by decide)).1,
   (removeScreen_spec ⟨0, [1, 2]⟩ 1 (by decide) (by decide)).2.1,
   (removeScreen_spec ⟨0, [1, 2]⟩ 1 (by decide) (by decide)).2.2 2
     (by decide)⟩

lemma nodup_addScreen (a : ScreenedApplication) (s : Nat)
    (hn : a.screens.Nodup) (hp : s ∉ a.screens) :
    (addScreen a s).1.screens.Nodup := by
  show (a.screens ++ [s]).Nodup
  rw [List.nodup_append]
  exact ⟨hn, by simp,
    fun t ht hts => hp ((List.mem_singleton.mp hts) ▸ ht)⟩

lemma nodup_focusScreen (a : ScreenedApplication) (s : Nat)
    (hn : a.screens.Nodup) : (focusScreen a s).1.screens.Nodup := by
  cases ha : a.screens with
  | nil =>
    have hres : (focusScreen a s).1 = a := by simp [focusScreen, ha]
    rw [hres]
    exact hn
  | cons f rest =>
    by_cases hf : f = s
    · have hres : (focusScreen a s).1 = a := by simp [focusScreen, ha, hf]
      rw [hres]
      exact hn
    · have hres : (focusScreen a s).1.screens =
          s :: (f :: rest).erase s := by simp [focusScreen, ha, hf]
      rw [hres]
      have hn' : (f :: rest).Nodup := ha ▸ hn
      exact List.nodup_cons.mpr ⟨hn'.not_mem_erase, hn'.erase s⟩

lemma nodup_applyOp (a : ScreenedApplication) (op : Op)
    (hn : a.screens.Nodup) (hp : opPre a op) :
    (applyOp a op).1.screens.Nodup := by
  cases op with
  | add s => exact nodup_addScreen a s hn hp
  | remove s => exact hn.erase s
  | focus s => exact nodup_focusScreen a s hn

/-- Claim C7: after any sequence of `addScreen` / `removeScreen` /
`focusScreen` operations respecting their preconditions, front-to-back
iteration over `screens()` visits each linked screen exactly once — the
list stays duplicate-free (a Lean list cannot be cyclic, so the
linked-list well-formedness reduces to `Nodup`). -/
theorem screens_iteration_wellformed (a : ScreenedApplication)
    (ops : List Op) (hn : a.screens.Nodup) (hv : ValidOps a ops) :
    (runOps a ops).screens.Nodup ∧
    (∀ s ∈ (runOps a ops).screens, (runOps a ops).screens.count s = 1) := by
  have key : ∀ (l : List Op) (b : ScreenedApplication), b.screens.Nodup →
      ValidOps b l → (runOps b l).screens.Nodup := by
    intro l
    induction l with
    | nil =>
      intro b hb _
      exact hb
    | cons op ops ih =>
      intro b hb hv
      obtain ⟨h1, h2⟩ := hv
      exact ih _ (nodup_applyOp b op hb h1) h2
  have hnd := key ops a hn hv
  exact ⟨hnd, fun s hs => List.count_eq_one_of_mem hnd hs⟩

/-- Witness for C7: from the empty application, the valid sequence
add 1, add 2, focus 2, remove 1 yields a duplicate-free screen list. -/
theorem screens_iteration_wellformed_witness :
    (([] : List Nat).Nodup ∧
      ValidOps ⟨0, []⟩ [.add 1, .add 2, .focus 2, .remove 1]) ∧
    (runOps ⟨0, []⟩ [.add 1, .add 2, .focus 2, .remove 1]).screens.Nodup :=
  ⟨⟨by decide, by decide⟩,
   (screens_iteration_wellformed ⟨0, []⟩
      [.add 1, .add 2, .focus 2, .remove 1] (by decide) (by decide)).1⟩

/-- Claim C8: violating an operation's precondition (adding an
already-linked screen; removing or focusing an unlinked one) is reported
through the assertion channel at the point of misuse, and under the
stated preconditions every operation succeeds — no recoverable runtime
error exists in the protocol. -/
theorem precondition_violations_are_assertions
    (a : ScreenedApplication) (s : Nat) :
    (s ∈ a.screens →
      addScreenChecked a s = .error (.screenAlreadyLinked s)) ∧
    (s ∉ a.screens → addScreenChecked a s = .ok (addScreen a s)) ∧
    (s ∉ a.screens →
      removeScreenChecked a s = .error (.screenNotLinked s)) ∧
    (s ∈ a.screens → removeScreenChecked a s = .ok (removeScreen a s)) ∧
    (s ∉ a.screens →
      focusScreenChecked a s = .error (.screenNotLinked s)) ∧
    (s ∈ a.screens → focusScreenChecked a s = .ok (focusScreen a s)) := by
  refine ⟨fun h => ?_, fun h => ?_, fun h => ?_, fun h => ?_,
    fun h => ?_, fun h => ?_⟩ <;>
  simp [addScreenChecked, removeScreenChecked, focusScreenChecked, h]

/-- Witness for C8: adding the already-linked screen 1 asserts, while
removing it succeeds. -/
theorem precondition_violations_are_assertions_witness :
    (1 ∈ ([1] : List Nat)) ∧
    addScreenChecked ⟨0, [1]⟩ 1 = .error (.screenAlreadyLinked 1) ∧
    removeScreenChecked ⟨0, [1]⟩ 1 = .ok (removeScreen ⟨0, [1]⟩ 1) :=
  ⟨by decide,
   (precondition_violations_are_assertions ⟨0, [1]⟩ 1).1 (by decide),
   (precondition_violations_are_assertions ⟨0, [1]⟩ 1).2.2.2.1
     (by decide)⟩

lemma nextFartherAux_of_not_mem :
    ∀ (l : List Nat) (s : Nat), s ∉ l → nextFartherAux s l = none
  | [], _, _ => rfl
  | [_], _, _ => rfl
  | x :: y :: rest, s, h => by
    have hx : ¬ x = s := fun e => h (e ▸ List.mem_cons_self x _)
    rw [nextFartherAux, if_neg hx]
    exact nextFartherAux_of_not_mem (y :: rest) s
      fun hm => h (List.mem_cons_of_mem x hm)

lemma nextFartherAux_getLast :
    ∀ (l : List Nat) (x : Nat), l.Nodup → l.getLast? = some x →
      nextFartherAux x l = none
  | [], _, _, h => by simp at h
  | [_], _, _, _ => rfl
  | a :: b :: rest, x, hn, h => by
    have hlast : (b :: rest).getLast? = some x := by
      rw [List.getLast?_cons_cons] at h
      exact h
    have hmem : x ∈ b :: rest := List.mem_of_mem_getLast? hlast
    have hna : a ∉ b :: rest := (List.nodup_cons.mp hn).1
    have ha : ¬ a = x := fun e => hna (e ▸ hmem)
    rw [nextFartherAux, if_neg ha]
    exact nextFartherAux_getLast (b :: rest) x (List.nodup_cons.mp hn).2
      hlast

lemma linkInvariant_of_nodup (a : ScreenedApplication)
    (hn : a.screens.Nodup) : LinkInvariant a := by
  refine ⟨hn, ?_, ?_, ?_, ?_⟩
  · intro s hs
    simp [screenApplication, hs]
  · intro s hs
    refine ⟨by simp [screenApplication, hs], ?_, ?_⟩
    · exact nextFartherAux_of_not_mem _ s hs
    · exact nextFartherAux_of_not_mem _ s (by simpa using hs)
  · intro f hf
    exact nextFartherAux_getLast a.screens.reverse f
      (List.nodup_reverse.mpr hn)
      (by rw [List.getLast?_reverse]; exact hf)
  · intro b hb
    exact nextFartherAux_getLast a.screens b hn hb

/-- Claim C9: each lifecycle operation, run under its precondition,
preserves the screen-link invariant — linked screens' back-references
point to the owner, unlinked screens' back-references are `none`, the
front screen has no nearer neighbour, the back screen no farther one,
and navigation from an unlinked screen yields `none` in both
directions. -/
theorem operations_preserve_link_invariant (a : ScreenedApplication)
    (op : Op) (hI : LinkInvariant a) (hp : opPre a op) :
    LinkInvariant (applyOp a op).1 :=
  linkInvariant_of_nodup _ (nodup_applyOp a op hI.1 hp)

/-- Witness for C9: the invariant holds after adding screen 3 to the
application owning screens 1 and 2. -/
theorem operations_preserve_link_invariant_witness :
    (LinkInvariant ⟨7, [1, 2]⟩ ∧ opPre ⟨7, [1, 2]⟩ (.add 3)) ∧
    LinkInvariant (applyOp ⟨7, [1, 2]⟩ (.add 3)).1 :=
  ⟨⟨linkInvariant_of_nodup _ (by decide), by decide⟩,
   operations_preserve_link_invariant ⟨7, [1, 2]⟩ (.add 3)
     (linkInvariant_of_nodup _ (by decide)) (by decide)⟩

/-- Claim C10: `addScreen`, `removeScreen` and `focusScreen` all return
the very application they were invoked on (self, for method chaining):
the returned state is the mutated application itself, carrying the same
object identity. -/
theorem operations_return_self (a : ScreenedApplication) (s : Nat) :
    (addScreen a s).1.ident = a.ident ∧
    (removeScreen a s).1.ident = a.ident ∧
    (focusScreen a s).1.ident = a.ident := by
  refine ⟨rfl, rfl, ?_⟩
  cases ha : a.screens with
  | nil => simp [focusScreen, ha]
  | cons f rest =>
    by_cases hf : f = s <;> simp [focusScreen, ha, hf]

end Magnum
